import Mathlib

/-!
Shallow embedding of the xv6 buffer cache (kernel/bio.c, the hashed-bucket +
timestamp-scan variant), together with proofs of the specified properties.

The cache state is a fixed pool of buffers (`bufs`, indexed by position, the
image of the C array `bcache.buf`) plus `MODNUM` bucket lists of indices (the
image of the intrusive doubly-linked lists of `bhashmap`, head first, most
recently inserted at the head).  Machine `uint` arithmetic is modelled as
`Nat` with explicit `% 2^32`.  Fatal `panic` paths are modelled by dedicated
result constructors / `Option.none`.  Execution is sequential: spinlocks and
sleep-locks never block in a single-context run, so lock acquisition is
modelled only through the `lockHeld` flag that `holdingsleep` inspects; for
the concurrency-sensitive revalidation step of the eviction loop, the loop is
additionally parameterised by interference functions applied at the point
where no lock protects the scanned candidate.
-/

namespace BCacheSpec

/-- Number of hash buckets: `#define MODNUM 19` in bio.c. -/
def MODNUM : Nat := 19

/-- `2^32`, the modulus of the C `uint` fields. -/
def U32 : Nat := 4294967296

/-- `0xFFFFFFFF`, the initial value of `lru_time` in bget's eviction scan. -/
def UINTMAX : Nat := 4294967295

/-- One `struct buf`: identity, valid flag, refcount, release timestamp,
block payload (abstracted to one value), and the sleep-lock held flag. -/
structure Buf where
  dev : Nat
  blockno : Nat
  valid : Bool
  refcnt : Nat
  timestamp : Nat
  data : Nat
  lockHeld : Bool
deriving DecidableEq, Repr

/-- The zero-initialised `struct buf` of the C global array (bss). -/
def Buf.init : Buf := ⟨0, 0, false, 0, 0, 0, false⟩

/-- The cache state: the buffer pool `bcache.buf` and the `MODNUM` bucket
lists of `bhashmap`, each a list of pool indices, list head first. -/
structure BCache where
  bufs : List Buf
  buckets : List (List Nat)
deriving DecidableEq, Repr

/-- Read pool slot `i` (out-of-range reads yield the zero buffer). -/
def BCache.buf (s : BCache) (i : Nat) : Buf := s.bufs.getD i Buf.init

/-- Overwrite pool slot `i`. -/
def BCache.setBuf (s : BCache) (i : Nat) (b : Buf) : BCache :=
  { s with bufs := s.bufs.set i b }

/-- `bhashgetline`: bucket index for a block number, `blockno % MODNUM`. -/
def bhashgetline (blockno : Nat) : Nat := blockno % MODNUM

/-- `bhashadd`: insert a buf at the head of bucket `h`. -/
def bhashadd (s : BCache) (h i : Nat) : BCache :=
  { s with buckets := s.buckets.set h (i :: s.buckets.getD h []) }

/-- `bhashget`: the first buf in bucket `h` whose identity matches
`(dev, blockno)`, scanning from the list head. -/
def bhashget (s : BCache) (h dev blockno : Nat) : Option Nat :=
  (s.buckets.getD h []).find? fun i =>
    (s.buf i).dev == dev && (s.buf i).blockno == blockno

/-- `bhashdel`: unlink a buf from bucket `h`. -/
def bhashdel (s : BCache) (h i : Nat) : BCache :=
  { s with buckets := s.buckets.set h ((s.buckets.getD h []).erase i) }

/-- `binit`: zero-initialised pool of `nbuf` buffers, every buffer inserted
into bucket 0 by `bhashadd`, all other buckets empty.  (`NBUF` itself comes
from param.h; the definition is parametric in it.) -/
def binit (nbuf : Nat) : BCache :=
  (List.range nbuf).foldl (fun s i => bhashadd s 0 i)
    { bufs := List.replicate nbuf Buf.init,
      buckets := List.replicate MODNUM [] }

/-- One comparison step of bget's eviction scan: update the running
`(lru_b, lru_time)` pair with buf `i` when `refcnt == 0` and its timestamp
strictly beats the running minimum. -/
def scanStep (bufs : List Buf) (acc : Option Nat × Nat) (i : Nat) :
    Option Nat × Nat :=
  let b := bufs.getD i Buf.init
  if b.refcnt = 0 ∧ b.timestamp < acc.2 then (some i, b.timestamp) else acc

/-- bget's eviction scan: walk buckets `0..MODNUM-1`, within each bucket in
list order, starting from `(lru_b, lru_time) = (0, 0xFFFFFFFF)`. -/
def scanLRU (s : BCache) : Option Nat × Nat :=
  (List.range MODNUM).foldl
    (fun acc h => (s.buckets.getD h []).foldl (scanStep s.bufs) acc)
    (none, UINTMAX)

/-- The pool indices in the order the eviction scan visits them. -/
def scanOrder (s : BCache) : List Nat :=
  ((List.range MODNUM).map fun h => s.buckets.getD h []).flatten

/-- The repurposing sequence of bget's miss path: remove the victim from the
bucket of its current `blockno`, assign the new identity with
`valid = false`, `refcnt = 1`, and insert it into the bucket of the new
`blockno`. -/
def recycle (s : BCache) (i dev blockno : Nat) : BCache :=
  let s1 := bhashdel s (bhashgetline (s.buf i).blockno) i
  let b := s1.buf i
  let s2 := s1.setBuf i
    { b with dev := dev, blockno := blockno, valid := false, refcnt := 1 }
  bhashadd s2 (bhashgetline blockno) i

/-- Result of the eviction loop. -/
inductive EvictOut where
  | bpanic
  | fuelOut (s : BCache)
  | recycled (s : BCache) (victim : Nat)
deriving DecidableEq, Repr

/-- The `while (1)` eviction loop of bget.  Each iteration scans, then — at
the point where neither `bcache.lock_del` protects the candidate's fields
nor its bucket lock is held — one interference function from `intf` may
mutate the state (concurrent acquirers); the iteration then re-acquires the
candidate's bucket lock and revalidates `refcnt == 0` and the timestamp
before repurposing, restarting the scan otherwise.  A sequential run passes
`intf = []` (no interference).  `fuel` bounds the retries so the function is
total; the C loop has no such bound. -/
def evictLoop (dev blockno : Nat) :
    Nat → BCache → List (BCache → BCache) → EvictOut
  | 0, s, _ => .fuelOut s
  | fuel + 1, s, intf =>
    match scanLRU s with
    | (none, _) => .bpanic
    | (some i, t) =>
      let s' := (intf.headD id) s
      if (s'.buf i).refcnt = 0 ∧ (s'.buf i).timestamp = t then
        .recycled (recycle s' i dev blockno) i
      else
        evictLoop dev blockno fuel s' intf.tail

/-- Result of `bget`/`bread`: either a fatal `panic("bget: no buffers")` or
a state together with the returned (locked) buffer index. -/
inductive BgetOut where
  | bpanic
  | ok (s : BCache) (i : Nat)
deriving DecidableEq, Repr

/-- `bget`, sequential execution.  Hit: increment `refcnt` and take the
sleep lock.  Miss: run the eviction loop without interference (a single
iteration suffices sequentially) and take the sleep lock on the recycled
buffer; if the loop finds no `refcnt == 0` buffer, panic. -/
def bget (s : BCache) (dev blockno : Nat) : BgetOut :=
  let h := bhashgetline blockno
  match bhashget s h dev blockno with
  | some i =>
    let b := s.buf i
    .ok (s.setBuf i { b with refcnt := (b.refcnt + 1) % U32, lockHeld := true }) i
  | none =>
    match evictLoop dev blockno 1 s [] with
    | .recycled s' i =>
      let b := s'.buf i
      .ok (s'.setBuf i { b with lockHeld := true }) i
    | _ => .bpanic

/-- The disk, as a map from `(dev, blockno)` to block contents. -/
def Disk : Type := Nat → Nat → Nat

/-- The effect of `virtio_disk_rw(b, 1)`: write `v` at `(dev, blockno)`. -/
def writeDisk (d : Disk) (dev blockno v : Nat) : Disk :=
  fun de bl => if de = dev ∧ bl = blockno then v else d de bl

/-- Result of `bread`: panic, or state, buffer index, and whether a device
read (`virtio_disk_rw(b, 0)`) was performed. -/
inductive BreadOut where
  | bpanic
  | ok (s : BCache) (i : Nat) (didRead : Bool)
deriving DecidableEq, Repr

/-- `bread`: `bget`, then a device read into the buffer iff it is not
valid, setting `valid` afterwards. -/
def bread (disk : Disk) (s : BCache) (dev blockno : Nat) : BreadOut :=
  match bget s dev blockno with
  | .bpanic => .bpanic
  | .ok s' i =>
    let b := s'.buf i
    if b.valid then .ok s' i false
    else .ok (s'.setBuf i { b with data := disk dev blockno, valid := true }) i true

/-- `bwrite`: `panic("bwrite")` when the caller does not hold the buffer's
sleep lock; otherwise a synchronous device write of the buffer's data.  No
cache state is mutated. -/
def bwrite (s : BCache) (i : Nat) (d : Disk) : Option (BCache × Disk) :=
  if (s.buf i).lockHeld then
    some (s, writeDisk d (s.buf i).dev (s.buf i).blockno (s.buf i).data)
  else none

/-- `brelse`: `panic("brelse")` when the caller does not hold the sleep
lock; otherwise release it, decrement `refcnt` (32-bit), and stamp the
buffer's timestamp with the current `ticks` value — unconditionally, whether
or not the refcount reached zero. -/
def brelse (s : BCache) (i : Nat) (ticks : Nat) : Option BCache :=
  if (s.buf i).lockHeld then
    let b := s.buf i
    some (s.setBuf i
      { b with lockHeld := false,
               refcnt := (b.refcnt + (U32 - 1)) % U32,
               timestamp := ticks % U32 })
  else none

/-- `bpin`: increment the buffer's `refcnt` (32-bit) under its bucket lock;
nothing else is touched. -/
def bpin (s : BCache) (i : Nat) : BCache :=
  let b := s.buf i
  s.setBuf i { b with refcnt := (b.refcnt + 1) % U32 }

/-- `bunpin`: decrement the buffer's `refcnt` (32-bit) under its bucket
lock, with no check against zero; nothing else is touched. -/
def bunpin (s : BCache) (i : Nat) : BCache :=
  let b := s.buf i
  s.setBuf i { b with refcnt := (b.refcnt + (U32 - 1)) % U32 }

/-- Structural well-formedness of a cache state: there are `MODNUM` bucket
lists; every listed index denotes a pool slot and sits in the bucket of its
own `blockno` (the property bio.c relies on when it re-locks
`bhashgetline(lru_b->blockno)`); every pool slot is listed; and no index is
listed twice.  Together: the buckets partition the pool. -/
def WF (s : BCache) : Prop :=
  s.buckets.length = MODNUM ∧
  (∀ h < MODNUM, ∀ i ∈ s.buckets.getD h [],
    i < s.bufs.length ∧ bhashgetline (s.buf i).blockno = h) ∧
  (∀ i < s.bufs.length, i ∈ scanOrder s) ∧
  (scanOrder s).Nodup

/-- Identity uniqueness: no two distinct pool slots carry the same
`(dev, blockno)` identity. -/
def UniqueIdent (s : BCache) : Prop :=
  ∀ i < s.bufs.length, ∀ j < s.bufs.length, i ≠ j →
    ¬((s.buf i).dev = (s.buf j).dev ∧ (s.buf i).blockno = (s.buf j).blockno)

/-- One cache operation of a sequential history. -/
inductive Op where
  | read (dev blockno : Nat)
  | relse (i ticks : Nat)
  | pin (i : Nat)
  | unpin (i : Nat)
deriving DecidableEq, Repr

/-- Run one operation; `none` models a panic. -/
def runOp (disk : Disk) (s : BCache) : Op → Option BCache
  | .read dev blockno =>
    match bread disk s dev blockno with
    | .ok s' _ _ => some s'
    | .bpanic => none
  | .relse i ticks => brelse s i ticks
  | .pin i => some (bpin s i)
  | .unpin i => some (bunpin s i)

/-- Run a sequence of operations. -/
def runOps (disk : Disk) : BCache → List Op → Option BCache
  | s, [] => some s
  | s, op :: ops =>
    match runOp disk s op with
    | some s' => runOps disk s' ops
    | none => none

/-- A disk whose block `(dev, bl)` holds `100 * dev + bl`, for concrete
runs. -/
def testDisk : Disk := fun dev bl => 100 * dev + bl

/-- Pool state whose only buffer has `refcnt = 0` but timestamp exactly
`0xFFFFFFFF`: an eligible victim the eviction scan cannot select. -/
def cexC1 : BCache :=
  ⟨[⟨0, 0, false, 0, UINTMAX, 0, false⟩], [0] :: List.replicate 18 []⟩

/-- Pool state with one buffer whose `refcnt` is 2 and timestamp 3, sleep
lock held, for observing `brelse` on a refcount that stays positive. -/
def cexC5 : BCache :=
  ⟨[⟨0, 0, true, 2, 3, 0, true⟩], [0] :: List.replicate 18 []⟩

/-- Pool state with one buffer whose `refcnt` is already 0, for observing
`bunpin` past zero. -/
def cexC8 : BCache :=
  ⟨[⟨0, 0, false, 0, 0, 0, false⟩], [0] :: List.replicate 18 []⟩

/-- Two-buffer well-formed pool: slot 0 holds block (0,0) released at time
3, slot 1 holds block (0,1) released at time 5; both refcount 0. -/
def poolTwo : BCache :=
  ⟨[⟨0, 0, true, 0, 3, 10, false⟩, ⟨0, 1, true, 0, 5, 11, false⟩],
   [0] :: [1] :: List.replicate 17 []⟩

/-- One-buffer pool whose buffer is claimed (`refcnt = 1`): no eviction
victim exists. -/
def poolBusy : BCache :=
  ⟨[⟨0, 0, true, 1, 0, 10, false⟩], [0] :: List.replicate 18 []⟩

/-- One-buffer pool holding block (1, 7), valid, refcount 1, sleep lock
held by the caller — the state right after materialising (1,7). -/
def poolHeld : BCache :=
  ⟨[⟨1, 7, true, 1, 2, 42, true⟩], (List.replicate 19 ([] : List Nat)).set 7 [0]⟩

/-- The state reached from `poolTwo` by materialising block (0, 24): slot 0
is evicted (smaller timestamp), repurposed and read from `testDisk`. -/
def poolTwoAfter : BCache :=
  ⟨[⟨0, 24, true, 1, 3, 24, true⟩, ⟨0, 1, true, 0, 5, 11, false⟩],
   [[], [1], [], [], [], [0], [], [], [], [], [], [], [], [], [], [], [], [],
    []]⟩

/-- The state reached from `poolTwo` by `bget` of block (0, 24) alone (miss
path, before any device read): slot 0 recycled and sleep-locked. -/
def poolTwoMiss : BCache :=
  ⟨[⟨0, 24, false, 1, 3, 10, true⟩, ⟨0, 1, true, 0, 5, 11, false⟩],
   [[], [1], [], [], [], [0], [], [], [], [], [], [], [], [], [], [], [], [],
    []]⟩

/-- The state `recycle poolTwo 0 0 24` produced inside the eviction loop
(slot 0 repurposed for block (0, 24), sleep lock not yet taken). -/
def poolTwoRecycled : BCache :=
  ⟨[⟨0, 24, false, 1, 3, 10, false⟩, ⟨0, 1, true, 0, 5, 11, false⟩],
   [[], [1], [], [], [], [0], [], [], [], [], [], [], [], [], [], [], [], [],
    []]⟩

/-- The result of `brelse cexC5 0 7`: refcount dropped to 1 (still
positive), yet the timestamp was restamped to 7. -/
def cexC5r : BCache :=
  ⟨[⟨0, 0, true, 1, 7, 0, false⟩], [0] :: List.replicate 18 []⟩

instance (s : BCache) : Decidable (WF s) := by
  unfold WF bhashgetline
  infer_instance

instance (s : BCache) : Decidable (UniqueIdent s) := by
  unfold UniqueIdent
  infer_instance

/-! ## Lemmas about the eviction scan

The scan is a left fold of `scanStep` over the bucket lists; every property
below is proved by induction on the flattened scan order. -/

theorem scanLRU_eq_foldl (s : BCache) :
    scanLRU s = (scanOrder s).foldl (scanStep s.bufs) (none, UINTMAX) := by
  simp only [scanLRU, scanOrder, List.foldl_flatten, List.foldl_map]

theorem scanStep_snd_le (bufs : List Buf) (acc : Option Nat × Nat) (x : Nat) :
    (scanStep bufs acc x).2 ≤ acc.2 := by
  simp only [scanStep]
  split
  · next h => exact h.2.le
  · exact le_rfl

theorem scan_foldl_snd_le (bufs : List Buf) (L : List Nat)
    (acc : Option Nat × Nat) : (L.foldl (scanStep bufs) acc).2 ≤ acc.2 := by
  induction L generalizing acc with
  | nil => exact le_rfl
  | cons x xs ih =>
    exact le_trans (ih (scanStep bufs acc x)) (scanStep_snd_le bufs acc x)

theorem scan_foldl_le_of_mem (bufs : List Buf) (L : List Nat)
    (acc : Option Nat × Nat) (j : Nat) (hj : j ∈ L)
    (hrc : (bufs.getD j Buf.init).refcnt = 0) :
    (L.foldl (scanStep bufs) acc).2 ≤ (bufs.getD j Buf.init).timestamp := by
  induction L generalizing acc with
  | nil => cases hj
  | cons x xs ih =>
    rcases List.mem_cons.mp hj with rfl | hj'
    · by_cases h : (bufs.getD j Buf.init).refcnt = 0 ∧
        (bufs.getD j Buf.init).timestamp < acc.2
      · have hstep : scanStep bufs acc j = (some j, (bufs.getD j Buf.init).timestamp) := by
          simp only [scanStep]
          exact if_pos h
        calc (List.foldl (scanStep bufs) (scanStep bufs acc j) xs).2
            ≤ (scanStep bufs acc j).2 := scan_foldl_snd_le bufs xs _
          _ ≤ (bufs.getD j Buf.init).timestamp := by rw [hstep]
      · have hge : acc.2 ≤ (bufs.getD j Buf.init).timestamp := by
          rcases Nat.lt_or_ge (bufs.getD j Buf.init).timestamp acc.2 with hlt | hge
          · exact absurd ⟨hrc, hlt⟩ h
          · exact hge
        have hstep : scanStep bufs acc j = acc := by
          simp only [scanStep]
          exact if_neg h
        calc (List.foldl (scanStep bufs) (scanStep bufs acc j) xs).2
            ≤ (scanStep bufs acc j).2 := scan_foldl_snd_le bufs xs _
          _ = acc.2 := by rw [hstep]
          _ ≤ _ := hge
    · exact ih (scanStep bufs acc x) hj'

theorem scan_foldl_cases (bufs : List Buf) (L : List Nat)
    (acc : Option Nat × Nat) :
    L.foldl (scanStep bufs) acc = acc ∨
    ∃ i ∈ L, L.foldl (scanStep bufs) acc =
        (some i, (bufs.getD i Buf.init).timestamp) ∧
      (bufs.getD i Buf.init).refcnt = 0 := by
  induction L generalizing acc with
  | nil => exact Or.inl rfl
  | cons x xs ih =>
    by_cases h : (bufs.getD x Buf.init).refcnt = 0 ∧
        (bufs.getD x Buf.init).timestamp < acc.2
    · have hstep : scanStep bufs acc x = (some x, (bufs.getD x Buf.init).timestamp) := by
        simp only [scanStep]
        exact if_pos h
      rcases ih (scanStep bufs acc x) with he | ⟨i, hi, he, hrc⟩
      · refine Or.inr ⟨x, List.mem_cons_self x xs, ?_, h.1⟩
        simpa [hstep] using he
      · exact Or.inr ⟨i, List.mem_cons_of_mem x hi, by simpa using he, hrc⟩
    · have hstep : scanStep bufs acc x = acc := by
        simp only [scanStep]
        exact if_neg h
      rcases ih (scanStep bufs acc x) with he | ⟨i, hi, he, hrc⟩
      · exact Or.inl (by simpa [hstep] using he)
      · exact Or.inr ⟨i, List.mem_cons_of_mem x hi, by simpa using he, hrc⟩

theorem scan_foldl_first (bufs : List Buf) (L : List Nat)
    (acc : Option Nat × Nat) (i : Nat) (t : Nat)
    (h : L.foldl (scanStep bufs) acc = (some i, t)) :
    (some i, t) = acc ∨
    ∃ A B, L = A ++ i :: B ∧ (bufs.getD i Buf.init).refcnt = 0 ∧
      (bufs.getD i Buf.init).timestamp = t ∧ t < acc.2 ∧
      ∀ j ∈ A, (bufs.getD j Buf.init).refcnt = 0 →
        t < (bufs.getD j Buf.init).timestamp := by
  induction L generalizing acc with
  | nil => exact Or.inl h.symm
  | cons x xs ih =>
    by_cases hx : (bufs.getD x Buf.init).refcnt = 0 ∧
        (bufs.getD x Buf.init).timestamp < acc.2
    · have hstep : scanStep bufs acc x = (some x, (bufs.getD x Buf.init).timestamp) := by
        simp only [scanStep]
        exact if_pos hx
      have h' : xs.foldl (scanStep bufs) (scanStep bufs acc x) = (some i, t) := by
        simpa using h
      rcases ih _ h' with he | ⟨A, B, hAB, hrc, hts, hlt, hfirst⟩
      · rw [hstep] at he
        have hix : x = i := by simpa using congrArg Prod.fst he.symm
        have hts : (bufs.getD x Buf.init).timestamp = t := by
          simpa using congrArg Prod.snd he.symm
        subst hix
        exact Or.inr ⟨[], xs, rfl, hx.1, hts, hts ▸ hx.2, by simp⟩
      · rw [hstep] at hlt
        refine Or.inr ⟨x :: A, B, by rw [hAB, List.cons_append], hrc, hts, ?_, ?_⟩
        · exact lt_trans hlt hx.2
        · intro j hj hjrc
          rcases List.mem_cons.mp hj with rfl | hj'
          · exact hlt
          · exact hfirst j hj' hjrc
    · have hstep : scanStep bufs acc x = acc := by
        simp only [scanStep]
        exact if_neg hx
      have h' : xs.foldl (scanStep bufs) (scanStep bufs acc x) = (some i, t) := by
        simpa using h
      rcases ih _ h' with he | ⟨A, B, hAB, hrc, hts, hlt, hfirst⟩
      · rw [hstep] at he
        exact Or.inl he
      · rw [hstep] at hlt
        refine Or.inr ⟨x :: A, B, by rw [hAB, List.cons_append], hrc, hts, hlt, ?_⟩
        intro j hj hjrc
        rcases List.mem_cons.mp hj with rfl | hj'
        · rcases Nat.lt_or_ge t (bufs.getD j Buf.init).timestamp with hlt' | hge
          · exact hlt'
          · exact absurd ⟨hjrc, lt_of_le_of_lt hge hlt⟩ hx
        · exact hfirst j hj' hjrc

theorem scanLRU_some (s : BCache) (i t : Nat) (h : scanLRU s = (some i, t)) :
    i ∈ scanOrder s ∧ (s.buf i).refcnt = 0 ∧ (s.buf i).timestamp = t ∧
    t < UINTMAX ∧
    (∀ j ∈ scanOrder s, (s.buf j).refcnt = 0 → t ≤ (s.buf j).timestamp) ∧
    ∃ A B, scanOrder s = A ++ i :: B ∧
      ∀ j ∈ A, (s.buf j).refcnt = 0 → t < (s.buf j).timestamp := by
  rw [scanLRU_eq_foldl] at h
  rcases scan_foldl_first s.bufs (scanOrder s) (none, UINTMAX) i t h with he | hfirst
  · exact absurd (congrArg Prod.fst he) (by simp)
  · obtain ⟨A, B, hAB, hrc, hts, hlt, hfirst⟩ := hfirst
    refine ⟨by rw [hAB]; exact List.mem_append_right A (List.mem_cons_self i B),
      hrc, hts, hlt, ?_, A, B, hAB, hfirst⟩
    intro j hj hjrc
    have := scan_foldl_le_of_mem s.bufs (scanOrder s) (none, UINTMAX) j hj hjrc
    rw [h] at this
    exact this

theorem scanLRU_miss_of_exists (s : BCache)
    (h : ∃ j ∈ scanOrder s, (s.buf j).refcnt = 0 ∧ (s.buf j).timestamp < UINTMAX) :
    ∃ i t, scanLRU s = (some i, t) := by
  obtain ⟨j, hj, hrc, hts⟩ := h
  have hle := scan_foldl_le_of_mem s.bufs (scanOrder s) (none, UINTMAX) j hj hrc
  rcases scan_foldl_cases s.bufs (scanOrder s) (none, UINTMAX) with he | ⟨i, _, he, _⟩
  · rw [he] at hle
    exact absurd (lt_of_le_of_lt hle hts) (lt_irrefl _)
  · exact ⟨i, (s.bufs.getD i Buf.init).timestamp, by rw [scanLRU_eq_foldl, he]⟩

theorem scanLRU_none_of_busy (s : BCache)
    (h : ∀ j ∈ scanOrder s, (s.buf j).refcnt ≠ 0) :
    scanLRU s = (none, UINTMAX) := by
  rcases scan_foldl_cases s.bufs (scanOrder s) (none, UINTMAX) with he | ⟨i, hi, _, hrc⟩
  · rw [scanLRU_eq_foldl, he]
  · exact absurd hrc (h i hi)

theorem mem_scanOrder (s : BCache) (j : Nat) (hj : j ∈ scanOrder s) :
    ∃ h < MODNUM, j ∈ s.buckets.getD h [] := by
  unfold scanOrder at hj
  rw [List.mem_flatten] at hj
  obtain ⟨l, hl, hjl⟩ := hj
  rw [List.mem_map] at hl
  obtain ⟨h, hh, rfl⟩ := hl
  exact ⟨h, List.mem_range.mp hh, hjl⟩

theorem mem_scanOrder_of_bucket (s : BCache) (h j : Nat) (hh : h < MODNUM)
    (hj : j ∈ s.buckets.getD h []) : j ∈ scanOrder s := by
  unfold scanOrder
  rw [List.mem_flatten]
  exact ⟨s.buckets.getD h [],
    List.mem_map_of_mem _ (List.mem_range.mpr hh), hj⟩

/-! ## Claim C1: global LRU victim selection -/

/-- C1, counterexample: the claim quantifies over *every* pool state with at
least one refcount-0 slot, but a pool whose only refcount-0 slot carries
timestamp `0xFFFFFFFF` defeats the scan's strict comparison against the
initial `lru_time = 0xFFFFFFFF`: no victim is chosen at all and `bget`
panics, so no chosen slot with minimal timestamp exists. -/
theorem C1_cex :
    (∃ j ∈ scanOrder cexC1, (cexC1.buf j).refcnt = 0) ∧
    (scanLRU cexC1).1 = none ∧ bget cexC1 0 5 = .bpanic := by decide

/-- C1, amended: whenever at least one slot has `refcnt = 0` and a timestamp
strictly below `0xFFFFFFFF`, the eviction scan of `bget` selects a victim
with `refcnt = 0` whose timestamp is minimal among all refcount-0 slots
across every bucket (global LRU), ties broken by scan order (every
refcount-0 slot encountered earlier has a strictly larger timestamp), and
the miss path of `bget` recycles exactly that victim. -/
theorem C1_global_lru (s : BCache)
    (hex : ∃ j ∈ scanOrder s,
      (s.buf j).refcnt = 0 ∧ (s.buf j).timestamp < UINTMAX) :
    ∃ i t, scanLRU s = (some i, t) ∧ i ∈ scanOrder s ∧
      (s.buf i).refcnt = 0 ∧ (s.buf i).timestamp = t ∧
      (∀ j ∈ scanOrder s, (s.buf j).refcnt = 0 → t ≤ (s.buf j).timestamp) ∧
      (∃ A B, scanOrder s = A ++ i :: B ∧
        ∀ j ∈ A, (s.buf j).refcnt = 0 → t < (s.buf j).timestamp) ∧
      ∀ dev blockno,
        evictLoop dev blockno 1 s [] = .recycled (recycle s i dev blockno) i := by
  obtain ⟨i, t, h⟩ := scanLRU_miss_of_exists s hex
  obtain ⟨hmem, hrc, hts, _, hmin, hfirst⟩ := scanLRU_some s i t h
  refine ⟨i, t, h, hmem, hrc, hts, hmin, hfirst, ?_⟩
  intro dev blockno
  simp [evictLoop, h, hrc, hts]

/-- C1 witness: the amended theorem applied to the concrete two-buffer pool
`poolTwo`, where slot 0 (timestamp 3) beats slot 1 (timestamp 5). -/
theorem C1_global_lru_witness :
    ∃ i t, scanLRU poolTwo = (some i, t) ∧ i ∈ scanOrder poolTwo ∧
      (poolTwo.buf i).refcnt = 0 ∧ (poolTwo.buf i).timestamp = t ∧
      (∀ j ∈ scanOrder poolTwo,
        (poolTwo.buf j).refcnt = 0 → t ≤ (poolTwo.buf j).timestamp) ∧
      (∃ A B, scanOrder poolTwo = A ++ i :: B ∧
        ∀ j ∈ A, (poolTwo.buf j).refcnt = 0 → t < (poolTwo.buf j).timestamp) ∧
      ∀ dev blockno, evictLoop dev blockno 1 poolTwo [] =
        .recycled (recycle poolTwo i dev blockno) i :=
  C1_global_lru poolTwo (by decide)

/-! ## Claim C3: pool exhaustion is a fatal panic -/

/-- C3: when the requested block misses its bucket and no slot anywhere in
the pool has `refcnt = 0`, `bget` ends in `panic("bget: no buffers")` — the
`bpanic` outcome — rather than blocking, retrying, or returning a buffer. -/
theorem C3_exhaustion_panics (s : BCache) (dev blockno : Nat) (hwf : WF s)
    (hbusy : ∀ j < s.bufs.length, (s.buf j).refcnt ≠ 0)
    (hmiss : bhashget s (bhashgetline blockno) dev blockno = none) :
    bget s dev blockno = .bpanic := by
  have hnone : scanLRU s = (none, UINTMAX) := by
    apply scanLRU_none_of_busy
    intro j hj
    obtain ⟨h, hh, hjb⟩ := mem_scanOrder s j hj
    exact hbusy j (hwf.2.1 h hh j hjb).1
  simp [bget, hmiss, evictLoop, hnone]

/-- C3 witness: the theorem applied to the one-buffer pool whose buffer is
claimed (`refcnt = 1`) and a request for the uncached block (0, 5). -/
theorem C3_exhaustion_panics_witness : bget poolBusy 0 5 = .bpanic :=
  C3_exhaustion_panics poolBusy 0 5 (by decide) (by decide) (by decide)

/-! ## Bucket bookkeeping lemmas -/

theorem getD_set_ne' {α : Type} (l : List α) (i j : Nat) (a d : α)
    (h : i ≠ j) : (l.set i a).getD j d = l.getD j d := by
  rw [List.getD_eq_getElem?_getD, List.getD_eq_getElem?_getD,
    List.getElem?_set_ne h]

theorem getD_set_self' {α : Type} (l : List α) (i : Nat) (a d : α)
    (h : i < l.length) : (l.set i a).getD i d = a := by
  rw [List.getD_eq_getElem?_getD, List.getElem?_set_self h, Option.getD_some]

theorem buf_setBuf_ne (s : BCache) (i : Nat) (b : Buf) (j : Nat) (h : j ≠ i) :
    (s.setBuf i b).buf j = s.buf j :=
  getD_set_ne' s.bufs i j b Buf.init (Ne.symm h)

theorem buf_setBuf_self (s : BCache) (i : Nat) (b : Buf)
    (h : i < s.bufs.length) : (s.setBuf i b).buf i = b :=
  getD_set_self' s.bufs i b Buf.init h

theorem bhashgetline_lt (blockno : Nat) : bhashgetline blockno < MODNUM :=
  Nat.mod_lt blockno (by decide)

/-- Splitting the flattened image of `List.range n` at one index: the
flattened list decomposes around `f h`, replacing `f` by any `g` that agrees
away from `h` only replaces the middle segment, and every element
contributed by another index lands in the outer segments. -/
theorem flatten_range_split (n h : Nat) (f : Nat → List Nat) (hh : h < n) :
    ∃ A B, ((List.range n).map f).flatten = A ++ f h ++ B ∧
      (∀ g : Nat → List Nat, (∀ h2, h2 ≠ h → g h2 = f h2) →
        ((List.range n).map g).flatten = A ++ g h ++ B) ∧
      (∀ h2, h2 < n → h2 ≠ h → ∀ x ∈ f h2, x ∈ A ∨ x ∈ B) := by
  induction n with
  | zero => cases hh
  | succ n ih =>
    rcases Nat.lt_or_ge h n with hlt | hge
    · obtain ⟨A, B, hAB, hg, hout⟩ := ih hlt
      refine ⟨A, B ++ f n, ?_, ?_, ?_⟩
      · rw [List.range_succ, List.map_append, List.flatten_append, hAB]
        simp [List.append_assoc]
      · intro g hgf
        rw [List.range_succ, List.map_append, List.flatten_append, hg g hgf]
        have hn : g n = f n := hgf n (Nat.ne_of_gt hlt)
        simp [hn, List.append_assoc]
      · intro h2 hh2 hne x hx
        rcases Nat.lt_or_ge h2 n with hlt2 | hge2
        · rcases hout h2 hlt2 hne x hx with hA | hB
          · exact Or.inl hA
          · exact Or.inr (List.mem_append_left _ hB)
        · have : h2 = n := Nat.le_antisymm (Nat.lt_succ_iff.mp hh2) hge2
          subst this
          exact Or.inr (List.mem_append_right _ hx)
    · have heq : h = n := Nat.le_antisymm (Nat.lt_succ_iff.mp hh) hge
      subst heq
      refine ⟨((List.range h).map f).flatten, [], ?_, ?_, ?_⟩
      · rw [List.range_succ, List.map_append, List.flatten_append]
        simp
      · intro g hgf
        rw [List.range_succ, List.map_append, List.flatten_append]
        have : (List.range h).map g = (List.range h).map f :=
          List.map_congr_left fun a ha =>
            hgf a (Nat.ne_of_lt (List.mem_range.mp ha))
        simp [this]
      · intro h2 hh2 hne x hx
        refine Or.inl (List.mem_flatten.mpr ⟨f h2, ?_, hx⟩)
        exact List.mem_map_of_mem f (List.mem_range.mpr
          (Nat.lt_of_le_of_ne (Nat.lt_succ_iff.mp hh2) hne))

/-- `scanOrder` decomposed around one bucket `h`: replacing that bucket's
list replaces exactly the middle segment (for any buffer pool), and entries
of other buckets lie in the outer segments. -/
theorem scanOrder_set (s : BCache) (h : Nat)
    (hlen : s.buckets.length = MODNUM) (hh : h < MODNUM) :
    ∃ A B, scanOrder s = A ++ s.buckets.getD h [] ++ B ∧
      (∀ (bufs' : List Buf) (L : List Nat),
        scanOrder ⟨bufs', s.buckets.set h L⟩ = A ++ L ++ B) ∧
      (∀ h2, h2 < MODNUM → h2 ≠ h →
        ∀ x ∈ s.buckets.getD h2 [], x ∈ A ∨ x ∈ B) := by
  obtain ⟨A, B, hAB, hg, hout⟩ :=
    flatten_range_split MODNUM h (fun h2 => s.buckets.getD h2 []) hh
  refine ⟨A, B, hAB, ?_, hout⟩
  intro bufs' L
  have hgf : ∀ h2, h2 ≠ h →
      (s.buckets.set h L).getD h2 [] = s.buckets.getD h2 [] := by
    intro h2 hne
    exact getD_set_ne' s.buckets h h2 L [] (Ne.symm hne)
  have := hg (fun h2 => (s.buckets.set h L).getD h2 []) hgf
  have hat : (s.buckets.set h L).getD h [] = L :=
    getD_set_self' s.buckets h L [] (hlen ▸ hh)
  rw [scanOrder]
  simp only at this
  rw [this, hat]

theorem find?_eq_some_of_unique {α : Type} (p : α → Bool) (l : List α)
    (a : α) (ha : a ∈ l) (hpa : p a = true)
    (huniq : ∀ b ∈ l, p b = true → b = a) : l.find? p = some a := by
  induction l with
  | nil => cases ha
  | cons x xs ih =>
    by_cases hx : p x = true
    · have hxa : x = a := huniq x (List.mem_cons_self x xs) hx
      subst hxa
      exact List.find?_cons_of_pos xs hx
    · rw [List.find?_cons_of_neg xs hx]
      have hax : a ∈ xs := by
        rcases List.mem_cons.mp ha with rfl | h'
        · exact absurd hpa hx
        · exact h'
      exact ih hax fun b hb => huniq b (List.mem_cons_of_mem x hb)

theorem bhashget_none_not_match (s : BCache) (h dev blockno : Nat)
    (hn : bhashget s h dev blockno = none) :
    ∀ x ∈ s.buckets.getD h [],
      ¬((s.buf x).dev = dev ∧ (s.buf x).blockno = blockno) := by
  intro x hx hmatch
  rw [bhashget, List.find?_eq_none] at hn
  exact hn x hx (by simp [hmatch.1, hmatch.2])

/-- `recycle` written out as one state literal (unfolding the three steps
`bhashdel` / `setBuf` / `bhashadd`). -/
theorem recycle_eq (s : BCache) (i dev blockno : Nat) :
    recycle s i dev blockno =
      ⟨s.bufs.set i
         { s.buf i with
             dev := dev, blockno := blockno, valid := false, refcnt := 1 },
       (s.buckets.set (bhashgetline (s.buf i).blockno)
          ((s.buckets.getD (bhashgetline (s.buf i).blockno) []).erase i)).set
         (bhashgetline blockno)
         (i :: (s.buckets.set (bhashgetline (s.buf i).blockno)
            ((s.buckets.getD (bhashgetline (s.buf i).blockno) []).erase i)).getD
              (bhashgetline blockno) [])⟩ := rfl

/-- Full specification of `recycle` on a well-formed state: the victim gets
the new identity with `valid = false`, `refcnt = 1`, every other slot is
untouched, the victim now sits (only) in the bucket of the new `blockno`,
the pool still partitions into the buckets without duplicates, and the set
of listed slots is unchanged. -/
theorem recycle_spec (s : BCache) (i dev blockno : Nat)
    (hwf : WF s) (hi : i ∈ scanOrder s) :
    WF (recycle s i dev blockno) ∧
    (recycle s i dev blockno).bufs.length = s.bufs.length ∧
    (recycle s i dev blockno).buf i =
      { s.buf i with
          dev := dev, blockno := blockno, valid := false, refcnt := 1 } ∧
    (∀ j, j ≠ i → (recycle s i dev blockno).buf j = s.buf j) ∧
    i ∈ (recycle s i dev blockno).buckets.getD (bhashgetline blockno) [] ∧
    (∀ h, h < MODNUM → h ≠ bhashgetline blockno →
      i ∉ (recycle s i dev blockno).buckets.getD h []) ∧
    (∀ j, j ∈ scanOrder (recycle s i dev blockno) ↔ j ∈ scanOrder s) := by
  have hlen : s.buckets.length = MODNUM := hwf.1
  have hoLT : bhashgetline (s.buf i).blockno < MODNUM := bhashgetline_lt _
  have hnLT : bhashgetline blockno < MODNUM := bhashgetline_lt _
  obtain ⟨h0, hh0, hmem0⟩ := mem_scanOrder s i hi
  obtain ⟨hilen, hcons0⟩ := hwf.2.1 h0 hh0 i hmem0
  have hiOld : i ∈ s.buckets.getD (bhashgetline (s.buf i).blockno) [] := by
    rw [hcons0]; exact hmem0
  obtain ⟨A, B, hsplit, hsetAB, houtAB⟩ :=
    scanOrder_set s (bhashgetline (s.buf i).blockno) hlen hoLT
  -- names for the pieces of the unfolded recycle
  have hr := recycle_eq s i dev blockno
  -- nodup decomposition of the original scan order
  have hndS : (scanOrder s).Nodup := hwf.2.2.2
  rw [hsplit] at hndS
  obtain ⟨hndAOld, hndB, hdisjB⟩ := List.nodup_append.mp hndS
  obtain ⟨hndA, hndOld, hdisjA⟩ := List.nodup_append.mp hndAOld
  have hiA : i ∉ A := fun hA => hdisjA hA hiOld
  have hiB : i ∉ B := fun hB =>
    hdisjB (List.mem_append_right A hiOld) hB
  have hiE : i ∉ (s.buckets.getD (bhashgetline (s.buf i).blockno) []).erase i := by
    intro hmem
    exact absurd (hndOld.mem_erase_iff.mp hmem).1 (by simp)
  have hiS1 : i ∉ A ++ (s.buckets.getD (bhashgetline (s.buf i).blockno) []).erase i ++ B := by
    intro hmem
    rcases List.mem_append.mp hmem with h' | hB'
    · rcases List.mem_append.mp h' with hA' | hE'
      · exact hiA hA'
      · exact hiE hE'
    · exact hiB hB'
  have hndS1 : (A ++ (s.buckets.getD (bhashgetline (s.buf i).blockno) []).erase i ++ B).Nodup := by
    refine List.Sublist.nodup ?_ hndS
    exact ((List.erase_sublist i _).append_left A).append_right B
  -- the state after bhashdel + setBuf
  have h2len :
      ((s.buckets.set (bhashgetline (s.buf i).blockno)
        ((s.buckets.getD (bhashgetline (s.buf i).blockno) []).erase i))).length
        = MODNUM := by
    rw [List.length_set]; exact hlen
  obtain ⟨A', B', hsplit', hsetAB', _⟩ :=
    scanOrder_set
      ⟨s.bufs.set i
         { s.buf i with
             dev := dev, blockno := blockno, valid := false, refcnt := 1 },
       s.buckets.set (bhashgetline (s.buf i).blockno)
         ((s.buckets.getD (bhashgetline (s.buf i).blockno) []).erase i)⟩
      (bhashgetline blockno) h2len hnLT
  have hscan2eq :
      scanOrder
        ⟨s.bufs.set i
           { s.buf i with
               dev := dev, blockno := blockno, valid := false, refcnt := 1 },
         s.buckets.set (bhashgetline (s.buf i).blockno)
           ((s.buckets.getD (bhashgetline (s.buf i).blockno) []).erase i)⟩ =
      A ++ (s.buckets.getD (bhashgetline (s.buf i).blockno) []).erase i ++ B :=
    hsetAB _ _
  -- scan order of the recycled state, as a permutation of a cons
  have hscanr : scanOrder (recycle s i dev blockno) =
      A' ++ (i :: (s.buckets.set (bhashgetline (s.buf i).blockno)
        ((s.buckets.getD (bhashgetline (s.buf i).blockno) []).erase i)).getD
          (bhashgetline blockno) []) ++ B' := by
    rw [hr]
    exact hsetAB' _ _
  have hassoc : A' ++ (i :: (s.buckets.set (bhashgetline (s.buf i).blockno)
      ((s.buckets.getD (bhashgetline (s.buf i).blockno) []).erase i)).getD
        (bhashgetline blockno) []) ++ B'
      = A' ++ i :: ((s.buckets.set (bhashgetline (s.buf i).blockno)
      ((s.buckets.getD (bhashgetline (s.buf i).blockno) []).erase i)).getD
        (bhashgetline blockno) [] ++ B') := by
    simp [List.append_assoc]
  have hmid : A' ++ ((s.buckets.set (bhashgetline (s.buf i).blockno)
      ((s.buckets.getD (bhashgetline (s.buf i).blockno) []).erase i)).getD
        (bhashgetline blockno) [] ++ B')
      = A ++ (s.buckets.getD (bhashgetline (s.buf i).blockno) []).erase i ++ B := by
    rw [← List.append_assoc, ← hsplit', hscan2eq]
  have hpermr : (scanOrder (recycle s i dev blockno)).Perm
      (i :: (A ++ (s.buckets.getD (bhashgetline (s.buf i).blockno) []).erase i ++ B)) := by
    rw [hscanr, hassoc, ← hmid]
    exact List.perm_middle
  have hmemr : ∀ j, j ∈ scanOrder (recycle s i dev blockno) ↔
      j = i ∨ j ∈ A ++ (s.buckets.getD (bhashgetline (s.buf i).blockno) []).erase i ++ B := by
    intro j
    rw [hpermr.mem_iff, List.mem_cons]
  have hmem_scan : ∀ j, j ∈ scanOrder (recycle s i dev blockno) ↔ j ∈ scanOrder s := by
    intro j
    rw [hmemr j]
    constructor
    · rintro (rfl | hj)
      · exact hi
      · rw [hsplit]
        exact List.Sublist.mem hj
          (((List.erase_sublist i _).append_left A).append_right B)
    · intro hj
      by_cases hji : j = i
      · exact Or.inl hji
      · refine Or.inr ?_
        rw [hsplit] at hj
        rcases List.mem_append.mp hj with h' | hB'
        · rcases List.mem_append.mp h' with hA' | hOld'
          · exact List.mem_append_left _ (List.mem_append_left _ hA')
          · exact List.mem_append_left _ (List.mem_append_right _
              ((List.mem_erase_of_ne hji).mpr hOld'))
        · exact List.mem_append_right _ hB'
  -- bucket contents of the recycled state
  have hbucket_new : (recycle s i dev blockno).buckets.getD (bhashgetline blockno) [] =
      i :: (s.buckets.set (bhashgetline (s.buf i).blockno)
        ((s.buckets.getD (bhashgetline (s.buf i).blockno) []).erase i)).getD
          (bhashgetline blockno) [] := by
    rw [hr]
    exact getD_set_self' _ _ _ _ (h2len ▸ hnLT)
  have hbucket_other : ∀ h, h ≠ bhashgetline blockno →
      (recycle s i dev blockno).buckets.getD h [] =
      (s.buckets.set (bhashgetline (s.buf i).blockno)
        ((s.buckets.getD (bhashgetline (s.buf i).blockno) []).erase i)).getD h [] := by
    intro h hne
    rw [hr]
    exact getD_set_ne' _ _ _ _ _ (Ne.symm hne)
  -- membership in an s1-bucket implies membership in the original bucket and j ≠ i
  have hS1bucket : ∀ h, h < MODNUM →
      ∀ j ∈ (s.buckets.set (bhashgetline (s.buf i).blockno)
        ((s.buckets.getD (bhashgetline (s.buf i).blockno) []).erase i)).getD h [],
      j ∈ s.buckets.getD h [] ∧ j ≠ i := by
    intro h hh j hj
    have hjS1 : j ∈ A ++ (s.buckets.getD (bhashgetline (s.buf i).blockno) []).erase i ++ B := by
      rw [← hscan2eq]
      exact mem_scanOrder_of_bucket _ h j hh hj
    have hjne : j ≠ i := fun he => hiS1 (he ▸ hjS1)
    by_cases hho : h = bhashgetline (s.buf i).blockno
    · subst hho
      rw [getD_set_self' _ _ _ _ (hlen ▸ hh)] at hj
      exact ⟨List.Sublist.mem hj (List.erase_sublist i _), hjne⟩
    · rw [getD_set_ne' _ _ _ _ _ (fun he => hho he.symm)] at hj
      exact ⟨hj, hjne⟩
  have hbufs_len : (recycle s i dev blockno).bufs.length = s.bufs.length := by
    rw [hr]
    exact List.length_set s.bufs i _
  have hbuf_i : (recycle s i dev blockno).buf i =
      { s.buf i with
          dev := dev, blockno := blockno, valid := false, refcnt := 1 } := by
    rw [hr]
    exact getD_set_self' s.bufs i _ Buf.init hilen
  have hbuf_ne : ∀ j, j ≠ i → (recycle s i dev blockno).buf j = s.buf j := by
    intro j hj
    rw [hr]
    exact getD_set_ne' s.bufs i j _ Buf.init (Ne.symm hj)
  refine ⟨⟨?_, ?_, ?_, ?_⟩, hbufs_len, hbuf_i, hbuf_ne, ?_, ?_, hmem_scan⟩
  · -- buckets length
    rw [hr]
    simp only [List.length_set]
    exact hlen
  · -- consistency of every bucket entry
    intro h hh j hj
    by_cases hhn : h = bhashgetline blockno
    · subst hhn
      rw [hbucket_new] at hj
      rcases List.mem_cons.mp hj with rfl | hj'
      · refine ⟨by rw [hbufs_len]; exact hilen, ?_⟩
        rw [hbuf_i]
      · obtain ⟨hjb, hjne⟩ := hS1bucket _ hh j hj'
        obtain ⟨hjlen, hjcons⟩ := hwf.2.1 _ hh j hjb
        refine ⟨by rw [hbufs_len]; exact hjlen, ?_⟩
        rw [hbuf_ne j hjne]
        exact hjcons
    · rw [hbucket_other h hhn] at hj
      obtain ⟨hjb, hjne⟩ := hS1bucket h hh j hj
      obtain ⟨hjlen, hjcons⟩ := hwf.2.1 h hh j hjb
      refine ⟨by rw [hbufs_len]; exact hjlen, ?_⟩
      rw [hbuf_ne j hjne]
      exact hjcons
  · -- coverage
    intro j hj
    rw [hbufs_len] at hj
    exact (hmem_scan j).mpr (hwf.2.2.1 j hj)
  · -- nodup
    exact hpermr.nodup_iff.mpr (List.nodup_cons.mpr ⟨hiS1, hndS1⟩)
  · -- the victim is in the new bucket
    rw [hbucket_new]
    exact List.mem_cons_self i _
  · -- and in no other bucket
    intro h hh hne hmem
    rw [hbucket_other h hne] at hmem
    exact (hS1bucket h hh i hmem).2 rfl

/-! ## Preservation of the structural invariants -/

theorem setBuf_ident (s : BCache) (i : Nat) (b : Buf)
    (hdev : b.dev = (s.buf i).dev) (hbn : b.blockno = (s.buf i).blockno) :
    ∀ j, ((s.setBuf i b).buf j).dev = (s.buf j).dev ∧
      ((s.setBuf i b).buf j).blockno = (s.buf j).blockno := by
  intro j
  by_cases hji : j = i
  · subst hji
    by_cases hlt : j < s.bufs.length
    · rw [buf_setBuf_self s j b hlt]
      exact ⟨hdev, hbn⟩
    · have hs : s.setBuf j b = s := by
        cases s with
        | mk bufs buckets =>
          simp only [BCache.setBuf]
          rw [List.set_eq_of_length_le (Nat.le_of_not_lt hlt)]
      rw [hs]
      exact ⟨rfl, rfl⟩
  · rw [buf_setBuf_ne s i b j hji]
    exact ⟨rfl, rfl⟩

theorem WF_setBuf (s : BCache) (i : Nat) (b : Buf)
    (hdev : b.dev = (s.buf i).dev)
    (hbn : b.blockno = (s.buf i).blockno) (hwf : WF s) : WF (s.setBuf i b) := by
  have hident := setBuf_ident s i b hdev hbn
  refine ⟨hwf.1, ?_, ?_, hwf.2.2.2⟩
  · intro h hh j hj
    obtain ⟨hjlen, hjcons⟩ := hwf.2.1 h hh j hj
    refine ⟨?_, ?_⟩
    · show j < (s.bufs.set i b).length
      rw [List.length_set]
      exact hjlen
    · rw [(hident j).2]
      exact hjcons
  · intro j hj
    have : j < s.bufs.length := by
      rw [show (s.setBuf i b).bufs.length = s.bufs.length from
        List.length_set s.bufs i b] at hj
      exact hj
    exact hwf.2.2.1 j this

theorem UniqueIdent_setBuf (s : BCache) (i : Nat) (b : Buf)
    (hdev : b.dev = (s.buf i).dev) (hbn : b.blockno = (s.buf i).blockno)
    (hu : UniqueIdent s) : UniqueIdent (s.setBuf i b) := by
  have hident := setBuf_ident s i b hdev hbn
  have hlen : (s.setBuf i b).bufs.length = s.bufs.length :=
    List.length_set s.bufs i b
  intro j hj k hk hne hmatch
  rw [hlen] at hj hk
  rw [(hident j).1, (hident j).2, (hident k).1, (hident k).2] at hmatch
  exact hu j hj k hk hne hmatch

theorem bhashget_some (s : BCache) (h dev blockno i : Nat)
    (hh : bhashget s h dev blockno = some i) :
    i ∈ s.buckets.getD h [] ∧
    (s.buf i).dev = dev ∧ (s.buf i).blockno = blockno := by
  rw [bhashget] at hh
  have hmem := List.mem_of_find?_eq_some hh
  have hp := List.find?_some hh
  simp only [Bool.and_eq_true, beq_iff_eq] at hp
  exact ⟨hmem, hp.1, hp.2⟩

/-- The hit path of `bget`, explicitly: increment the refcount, take the
sleep lock, return the found buffer. -/
theorem bget_hit (s : BCache) (dev blockno i : Nat)
    (hhit : bhashget s (bhashgetline blockno) dev blockno = some i) :
    bget s dev blockno = .ok (s.setBuf i
      { s.buf i with
          refcnt := ((s.buf i).refcnt + 1) % U32, lockHeld := true }) i := by
  simp [bget, hhit]

/-- The miss path of `bget`, explicitly: recycle the victim selected by the
eviction scan and take its sleep lock. -/
theorem bget_miss (s : BCache) (dev blockno i t : Nat)
    (hmiss : bhashget s (bhashgetline blockno) dev blockno = none)
    (hscan : scanLRU s = (some i, t)) :
    bget s dev blockno = .ok ((recycle s i dev blockno).setBuf i
      { (recycle s i dev blockno).buf i with lockHeld := true }) i := by
  obtain ⟨_, hrc, hts, _, _, _⟩ := scanLRU_some s i t hscan
  simp [bget, hmiss, evictLoop, hscan, hrc, hts]

theorem UniqueIdent_recycle (s : BCache) (i dev blockno : Nat)
    (hwf : WF s) (hu : UniqueIdent s) (hi : i ∈ scanOrder s)
    (hmiss : bhashget s (bhashgetline blockno) dev blockno = none) :
    UniqueIdent (recycle s i dev blockno) := by
  obtain ⟨hwfr, hlen, hbuf_i, hbuf_ne, _, _, _⟩ :=
    recycle_spec s i dev blockno hwf hi
  have hother : ∀ k, k < s.bufs.length → k ≠ i →
      ¬((s.buf k).dev = dev ∧ (s.buf k).blockno = blockno) := by
    intro k hk _ hmatch
    have hkmem : k ∈ scanOrder s := hwf.2.2.1 k hk
    obtain ⟨h, hh, hkb⟩ := mem_scanOrder s k hkmem
    have hcons := (hwf.2.1 h hh k hkb).2
    rw [hmatch.2] at hcons
    rw [← hcons] at hkb
    exact bhashget_none_not_match s _ dev blockno hmiss k hkb hmatch
  intro j hj k hk hne hmatch
  rw [hlen] at hj hk
  by_cases hji : j = i
  · by_cases hki : k = i
    · exact hne (hji.trans hki.symm)
    · rw [hji, hbuf_i, hbuf_ne k hki] at hmatch
      exact hother k hk hki ⟨hmatch.1.symm, hmatch.2.symm⟩
  · by_cases hki : k = i
    · rw [hki, hbuf_i, hbuf_ne j hji] at hmatch
      exact hother j hj hji ⟨hmatch.1, hmatch.2⟩
    · rw [hbuf_ne j hji, hbuf_ne k hki] at hmatch
      exact hu j hj k hk hne hmatch

theorem bget_preserves (s : BCache) (dev blockno : Nat) (s' : BCache)
    (i : Nat) (hwf : WF s) (hu : UniqueIdent s)
    (h : bget s dev blockno = .ok s' i) : WF s' ∧ UniqueIdent s' := by
  rcases hhit : bhashget s (bhashgetline blockno) dev blockno with _ | j
  · rcases hscan : scanLRU s with ⟨b0, t⟩
    rcases b0 with _ | j
    · rw [bget] at h
      simp only [hhit] at h
      rw [show evictLoop dev blockno 1 s [] = .bpanic by
        simp [evictLoop, hscan]] at h
      cases h
    · have hb := bget_miss s dev blockno j t hhit hscan
      rw [hb] at h
      obtain ⟨hok, hieq⟩ : (recycle s j dev blockno).setBuf j
          { (recycle s j dev blockno).buf j with lockHeld := true } = s' ∧
          j = i := by
        cases h
        exact ⟨rfl, rfl⟩
      subst hieq
      obtain ⟨hmem, _, _, _, _, _⟩ := scanLRU_some s j t hscan
      obtain ⟨hwfr, _, _, _, _, _, _⟩ := recycle_spec s j dev blockno hwf hmem
      have hur := UniqueIdent_recycle s j dev blockno hwf hu hmem hhit
      rw [← hok]
      exact ⟨WF_setBuf _ j _ rfl rfl hwfr, UniqueIdent_setBuf _ j _ rfl rfl hur⟩
  · have hb := bget_hit s dev blockno j hhit
    rw [hb] at h
    obtain ⟨hok, hieq⟩ : s.setBuf j
        { s.buf j with
            refcnt := ((s.buf j).refcnt + 1) % U32, lockHeld := true } = s' ∧
        j = i := by
      cases h
      exact ⟨rfl, rfl⟩
    subst hieq
    rw [← hok]
    exact ⟨WF_setBuf _ j _ rfl rfl hwf, UniqueIdent_setBuf _ j _ rfl rfl hu⟩

theorem bread_eq (disk : Disk) (s : BCache) (dev blockno : Nat) :
    (bread disk s dev blockno = .bpanic ∧ bget s dev blockno = .bpanic) ∨
    ∃ s1 i, bget s dev blockno = .ok s1 i ∧
      (((s1.buf i).valid = true ∧
        bread disk s dev blockno = .ok s1 i false) ∨
       ((s1.buf i).valid = false ∧
        bread disk s dev blockno = .ok (s1.setBuf i
          { s1.buf i with data := disk dev blockno, valid := true }) i true)) := by
  rcases hb : bget s dev blockno with _ | ⟨s1, j⟩
  · exact Or.inl ⟨by rw [bread, hb], rfl⟩
  · refine Or.inr ⟨s1, j, rfl, ?_⟩
    by_cases hv : (s1.buf j).valid = true
    · exact Or.inl ⟨hv, by rw [bread, hb]; dsimp only; rw [if_pos hv]⟩
    · refine Or.inr ⟨by simpa using hv, ?_⟩
      rw [bread, hb]
      dsimp only
      rw [if_neg hv]

theorem runOp_preserves (disk : Disk) (s : BCache) (op : Op) (s' : BCache)
    (hwf : WF s) (hu : UniqueIdent s) (h : runOp disk s op = some s') :
    WF s' ∧ UniqueIdent s' := by
  cases op with
  | read dev blockno =>
    rw [runOp] at h
    rcases bread_eq disk s dev blockno with ⟨hbr, _⟩ | ⟨s1, i, hb, hcase⟩
    · rw [hbr] at h
      cases h
    · obtain ⟨hwf1, hu1⟩ := bget_preserves s dev blockno s1 i hwf hu hb
      rcases hcase with ⟨hv, hbr⟩ | ⟨hv, hbr⟩ <;> rw [hbr] at h <;> cases h
      · exact ⟨hwf1, hu1⟩
      · exact ⟨WF_setBuf _ i _ rfl rfl hwf1, UniqueIdent_setBuf _ i _ rfl rfl hu1⟩
  | relse i ticks =>
    rw [runOp, brelse] at h
    by_cases hl : (s.buf i).lockHeld
    · rw [if_pos hl] at h
      cases h
      exact ⟨WF_setBuf _ i _ rfl rfl hwf, UniqueIdent_setBuf _ i _ rfl rfl hu⟩
    · rw [if_neg hl] at h
      cases h
  | pin i =>
    rw [runOp] at h
    cases h
    exact ⟨WF_setBuf _ i _ rfl rfl hwf, UniqueIdent_setBuf _ i _ rfl rfl hu⟩
  | unpin i =>
    rw [runOp] at h
    cases h
    exact ⟨WF_setBuf _ i _ rfl rfl hwf, UniqueIdent_setBuf _ i _ rfl rfl hu⟩

theorem runOps_preserves (disk : Disk) (s : BCache) (ops : List Op)
    (s' : BCache) (hwf : WF s) (hu : UniqueIdent s)
    (h : runOps disk s ops = some s') : WF s' ∧ UniqueIdent s' := by
  induction ops generalizing s with
  | nil =>
    rw [runOps] at h
    cases h
    exact ⟨hwf, hu⟩
  | cons op ops ih =>
    rw [runOps] at h
    rcases hop : runOp disk s op with _ | s1
    · rw [hop] at h
      cases h
    · rw [hop] at h
      obtain ⟨hwf1, hu1⟩ := runOp_preserves disk s op s1 hwf hu hop
      exact ih s1 hwf1 hu1 h

/-! ## Claim C2: identity uniqueness -/

theorem foldl_bhashadd_bufs (l : List Nat) (s : BCache) :
    (l.foldl (fun s i => bhashadd s 0 i) s).bufs = s.bufs := by
  induction l generalizing s with
  | nil => rfl
  | cons x xs ih =>
    rw [List.foldl_cons, ih]
    rfl

theorem binit_bufs (nbuf : Nat) :
    (binit nbuf).bufs = List.replicate nbuf Buf.init := by
  rw [binit, foldl_bhashadd_bufs]

theorem binit_buf (nbuf j : Nat) (hj : j < nbuf) :
    (binit nbuf).buf j = Buf.init := by
  rw [BCache.buf, binit_bufs, List.getD_eq_getElem?_getD,
    List.getElem?_replicate, if_pos hj, Option.getD_some]

/-- C2, counterexample: in the claimed variant, `binit` zero-initialises the
pool and inserts every buffer into bucket 0 without assigning distinct block
numbers, so immediately after initialization every slot carries the same
identity (0, 0) — with `NBUF = 30` (xv6's param.h) slots 0 and 1 already
collide, violating "at most one slot per identity ... including immediately
after initialization". -/
theorem C2_cex :
    ((binit 30).buf 0).dev = 0 ∧ ((binit 30).buf 0).blockno = 0 ∧
    ((binit 30).buf 1).dev = 0 ∧ ((binit 30).buf 1).blockno = 0 ∧
    (0:Nat) < (binit 30).bufs.length ∧ 1 < (binit 30).bufs.length ∧
    ¬ UniqueIdent (binit 30) := by decide

/-- C2, amended: `bget`/`bread` (and the other façade operations) never
*create* a duplicate (device, block) identity — from any well-formed state
in which at most one slot carries each identity, any sequence of operations
that completes leaves at most one slot per identity — but the claim's
"including immediately after initialization" fails: `binit` leaves every
slot (≥ 2 of them) carrying the identity (0, 0). -/
theorem C2_unique_preserved :
    (∀ (disk : Disk) (s : BCache) (ops : List Op) (s' : BCache),
      WF s → UniqueIdent s → runOps disk s ops = some s' →
      WF s' ∧ UniqueIdent s') ∧
    ∀ nbuf, 2 ≤ nbuf → ¬ UniqueIdent (binit nbuf) := by
  constructor
  · exact fun disk s ops s' hwf hu h => runOps_preserves disk s ops s' hwf hu h
  · intro nbuf hn hu
    have hlen : (binit nbuf).bufs.length = nbuf := by
      rw [binit_bufs, List.length_replicate]
    have h0 : (0:Nat) < (binit nbuf).bufs.length := by omega
    have h1 : (1:Nat) < (binit nbuf).bufs.length := by omega
    refine hu 0 h0 1 h1 (by omega) ?_
    rw [binit_buf nbuf 0 (by omega), binit_buf nbuf 1 (by omega)]
    exact ⟨rfl, rfl⟩

/-- C2 witness: the amended theorem applied to the concrete two-buffer pool
with a materialisation of block (0, 24) (a miss that recycles slot 0), and
to a two-buffer initial pool. -/
theorem C2_unique_preserved_witness :
    (WF poolTwoAfter ∧ UniqueIdent poolTwoAfter) ∧
    ¬ UniqueIdent (binit 2) :=
  ⟨C2_unique_preserved.1 testDisk poolTwo [Op.read 0 24] poolTwoAfter
    (by decide) (by decide) (by decide),
   C2_unique_preserved.2 2 (by decide)⟩

/-! ## Claim C4: postcondition of the miss path -/

/-- C4: when `bget` misses (the key is absent from its bucket) and returns
a buffer, the returned slot carries the requested identity with
`valid = false` and `refcnt = 1`, sits in the bucket selected by the new
block number and in no other bucket (in particular it was removed from its
old bucket), and the enclosing `bread` of the recycled slot performs a
fresh device transfer. -/
theorem C4_miss_postcondition (s : BCache) (dev blockno : Nat)
    (s' : BCache) (i : Nat) (hwf : WF s)
    (hmiss : bhashget s (bhashgetline blockno) dev blockno = none)
    (hok : bget s dev blockno = .ok s' i) :
    (s'.buf i).dev = dev ∧ (s'.buf i).blockno = blockno ∧
    (s'.buf i).valid = false ∧ (s'.buf i).refcnt = 1 ∧
    i ∈ s'.buckets.getD (bhashgetline blockno) [] ∧
    (∀ h, h < MODNUM → h ≠ bhashgetline blockno →
      i ∉ s'.buckets.getD h []) ∧
    ∀ disk : Disk, bread disk s dev blockno =
      .ok (s'.setBuf i
        { s'.buf i with data := disk dev blockno, valid := true }) i true := by
  rcases hscan : scanLRU s with ⟨b0, t⟩
  rcases b0 with _ | j
  · rw [bget] at hok
    simp only [hmiss] at hok
    rw [show evictLoop dev blockno 1 s [] = .bpanic by
      simp [evictLoop, hscan]] at hok
    cases hok
  · have hb := bget_miss s dev blockno j t hmiss hscan
    rw [hb] at hok
    injection hok with h1 h2
    have h2s : i = j := h2.symm
    subst h2s
    subst h1
    obtain ⟨hmem, _, _, _, _, _⟩ := scanLRU_some s i t hscan
    obtain ⟨h0, hh0, hmem0⟩ := mem_scanOrder s i hmem
    have hilen : i < s.bufs.length := (hwf.2.1 h0 hh0 i hmem0).1
    obtain ⟨hwfr, hrlen, hbuf_i, _, hnew, hnot, _⟩ :=
      recycle_spec s i dev blockno hwf hmem
    have hirlen : i < (recycle s i dev blockno).bufs.length := by
      rw [hrlen]; exact hilen
    have hfin : ((recycle s i dev blockno).setBuf i
        { (recycle s i dev blockno).buf i with lockHeld := true }).buf i =
        { (recycle s i dev blockno).buf i with lockHeld := true } :=
      buf_setBuf_self _ i _ hirlen
    have hfields : (((recycle s i dev blockno).setBuf i
        { (recycle s i dev blockno).buf i with lockHeld := true }).buf i) =
        { s.buf i with
            dev := dev, blockno := blockno, valid := false, refcnt := 1,
            lockHeld := true } := by
      rw [hfin, hbuf_i]
    refine ⟨by rw [hfields], by rw [hfields], by rw [hfields],
      by rw [hfields], hnew, hnot, ?_⟩
    intro disk
    rw [bread, hb]
    dsimp only
    rw [if_neg (by rw [hfields]; simp)]

/-- C4 witness: the theorem applied to `poolTwo` and a request for the
uncached block (0, 24), whose `bget` recycles slot 0 into `poolTwoMiss`. -/
theorem C4_miss_postcondition_witness :
    (poolTwoMiss.buf 0).dev = 0 ∧ (poolTwoMiss.buf 0).blockno = 24 ∧
    (poolTwoMiss.buf 0).valid = false ∧ (poolTwoMiss.buf 0).refcnt = 1 ∧
    0 ∈ poolTwoMiss.buckets.getD (bhashgetline 24) [] ∧
    (∀ h, h < MODNUM → h ≠ bhashgetline 24 →
      0 ∉ poolTwoMiss.buckets.getD h []) ∧
    ∀ disk : Disk, bread disk poolTwo 0 24 =
      .ok (poolTwoMiss.setBuf 0
        { poolTwoMiss.buf 0 with data := disk 0 24, valid := true }) 0 true :=
  C4_miss_postcondition poolTwo 0 24 poolTwoMiss 0
    (by decide) (by decide) (by decide)

/-! ## Claim C9: optimistic revalidation of the eviction candidate -/

/-- C9: whatever concurrent interference runs between the scan and the
revalidation, (1) a slot that the eviction loop actually recycles passed the
revalidation — at the moment of repurposing its refcount was 0 and its
timestamp equalled the scanned value — and (2) when the revalidation finds
the candidate re-acquired (`refcnt ≠ 0`) or re-stamped (timestamp changed),
that candidate is discarded and the whole scan restarts on the interfered
state. -/
theorem C9_revalidation :
    (∀ dev blockno fuel s intf s' i,
      evictLoop dev blockno fuel s intf = .recycled s' i →
      ∃ (s0 : BCache) (σ : BCache → BCache) (t : Nat),
        scanLRU s0 = (some i, t) ∧
        ((σ s0).buf i).refcnt = 0 ∧ ((σ s0).buf i).timestamp = t ∧
        s' = recycle (σ s0) i dev blockno) ∧
    (∀ dev blockno fuel s σ intf i t,
      scanLRU s = (some i, t) →
      (((σ s).buf i).refcnt ≠ 0 ∨ ((σ s).buf i).timestamp ≠ t) →
      evictLoop dev blockno (fuel + 1) s (σ :: intf) =
        evictLoop dev blockno fuel (σ s) intf) := by
  constructor
  · intro dev blockno fuel
    induction fuel with
    | zero =>
      intro s intf s' i h
      rw [evictLoop] at h
      cases h
    | succ fuel ih =>
      intro s intf s' i h
      rcases hscan : scanLRU s with ⟨b0, t0⟩
      rcases b0 with _ | j
      · rw [evictLoop] at h
        rw [hscan] at h
        exact absurd h (by simp)
      · rw [evictLoop] at h
        rw [hscan] at h
        dsimp only at h
        by_cases hc : ((intf.headD id s).buf j).refcnt = 0 ∧
            ((intf.headD id s).buf j).timestamp = t0
        · rw [if_pos hc] at h
          injection h with h1 h2
          subst h2
          exact ⟨s, intf.headD id, t0, hscan, hc.1, hc.2, h1.symm⟩
        · rw [if_neg hc] at h
          exact ih _ intf.tail s' i h
  · intro dev blockno fuel s σ intf i t hscan hfail
    rw [evictLoop]
    rw [hscan]
    dsimp only
    rw [if_neg]
    · rfl
    · rcases hfail with hrc | hts
      · exact fun hc => hrc hc.1
      · exact fun hc => hts hc.2

/-- C9 witness: part (1) applied to the interference-free run on `poolTwo`
that recycles slot 0 for block (0, 24); part (2) applied to an interference
that pins the candidate (slot 0) between the scan and the revalidation,
which makes the loop restart. -/
theorem C9_revalidation_witness :
    (∃ (s0 : BCache) (σ : BCache → BCache) (t : Nat),
      scanLRU s0 = (some 0, t) ∧
      ((σ s0).buf 0).refcnt = 0 ∧ ((σ s0).buf 0).timestamp = t ∧
      poolTwoRecycled = recycle (σ s0) 0 0 24) ∧
    evictLoop 0 24 1 poolTwo [fun s => bpin s 0] =
      evictLoop 0 24 0 (bpin poolTwo 0) [] :=
  ⟨C9_revalidation.1 0 24 1 poolTwo [] poolTwoRecycled 0 (by decide),
   C9_revalidation.2 0 24 0 poolTwo (fun s => bpin s 0) [] 0 3
     (by decide) (Or.inl (by decide))⟩

/-! ## Claim C5: brelse stamps unconditionally -/

/-- C5, counterexample: releasing a buffer whose refcount is 2 leaves the
refcount positive (1) and yet restamps its timestamp (3 becomes 7) — the
claimed "recency updated if and only if the decrement reaches 0" direction
fails, because `brelse` in bio.c writes `b->timestamp = timestamp`
unconditionally, outside any `if (b->refcnt == 0)`. -/
theorem C5_cex :
    (cexC5.buf 0).refcnt = 2 ∧ (cexC5.buf 0).timestamp = 3 ∧
    brelse cexC5 0 7 = some cexC5r ∧
    (cexC5r.buf 0).refcnt = 1 ∧ (cexC5r.buf 0).timestamp = 7 := by decide

/-- C5, amended: `brelse` called with the content lock held releases the
lock and decrements the refcount (32-bit), and stamps the slot's recency
timestamp with the current `ticks` value on *every* release — whether or
not the refcount reached 0; called without the lock it panics. -/
theorem C5_brelse (s : BCache) (i ticks : Nat) :
    ((s.buf i).lockHeld = false → brelse s i ticks = none) ∧
    ((s.buf i).lockHeld = true → i < s.bufs.length →
      ∃ s', brelse s i ticks = some s' ∧
        (s'.buf i).lockHeld = false ∧
        (s'.buf i).refcnt = ((s.buf i).refcnt + (U32 - 1)) % U32 ∧
        (0 < (s.buf i).refcnt → (s.buf i).refcnt < U32 →
          (s'.buf i).refcnt = (s.buf i).refcnt - 1) ∧
        (s'.buf i).timestamp = ticks % U32 ∧
        (s'.buf i).dev = (s.buf i).dev ∧
        (s'.buf i).blockno = (s.buf i).blockno ∧
        (s'.buf i).valid = (s.buf i).valid ∧
        (s'.buf i).data = (s.buf i).data ∧
        (∀ j, j ≠ i → s'.buf j = s.buf j) ∧
        s'.buckets = s.buckets) := by
  constructor
  · intro hl
    rw [brelse, if_neg]
    rw [hl]
    exact Bool.false_ne_true
  · intro hl hlen
    refine ⟨_, by rw [brelse, if_pos hl], ?_⟩
    have hb := buf_setBuf_self s i
      { s.buf i with
          lockHeld := false,
          refcnt := ((s.buf i).refcnt + (U32 - 1)) % U32,
          timestamp := ticks % U32 } hlen
    rw [hb]
    refine ⟨rfl, rfl, ?_, rfl, rfl, rfl, rfl, rfl,
      fun j hj => buf_setBuf_ne s i _ j hj, rfl⟩
    intro h0 hU
    show ((s.buf i).refcnt + (U32 - 1)) % U32 = (s.buf i).refcnt - 1
    simp only [U32] at hU ⊢
    omega

/-- C5 witness: the amended theorem applied to the one-buffer pool whose
buffer is held (`poolHeld`) and to one that is not (`poolTwo`). -/
theorem C5_brelse_witness :
    (∃ s', brelse poolHeld 0 9 = some s' ∧
      (s'.buf 0).lockHeld = false ∧
      (s'.buf 0).refcnt = ((poolHeld.buf 0).refcnt + (U32 - 1)) % U32 ∧
      (0 < (poolHeld.buf 0).refcnt → (poolHeld.buf 0).refcnt < U32 →
        (s'.buf 0).refcnt = (poolHeld.buf 0).refcnt - 1) ∧
      (s'.buf 0).timestamp = 9 % U32 ∧
      (s'.buf 0).dev = (poolHeld.buf 0).dev ∧
      (s'.buf 0).blockno = (poolHeld.buf 0).blockno ∧
      (s'.buf 0).valid = (poolHeld.buf 0).valid ∧
      (s'.buf 0).data = (poolHeld.buf 0).data ∧
      (∀ j, j ≠ 0 → s'.buf j = poolHeld.buf j) ∧
      s'.buckets = poolHeld.buckets) ∧
    brelse poolTwo 0 9 = none :=
  ⟨(C5_brelse poolHeld 0 9).2 (by decide) (by decide),
   (C5_brelse poolTwo 0 9).1 (by decide)⟩

/-- `bread` on a hit of a valid buffer: no device read, payload and valid
flag untouched, only the refcount and the sleep lock change. -/
theorem bread_hit (d : Disk) (s : BCache) (dev blockno i : Nat)
    (hfind : bhashget s (bhashgetline blockno) dev blockno = some i)
    (hlen : i < s.bufs.length) (hvalid : (s.buf i).valid = true) :
    bread d s dev blockno = .ok (s.setBuf i
      { s.buf i with
          refcnt := ((s.buf i).refcnt + 1) % U32, lockHeld := true }) i false ∧
    ((s.setBuf i
      { s.buf i with
          refcnt := ((s.buf i).refcnt + 1) % U32,
          lockHeld := true }).buf i).data = (s.buf i).data ∧
    ((s.setBuf i
      { s.buf i with
          refcnt := ((s.buf i).refcnt + 1) % U32,
          lockHeld := true }).buf i).valid = true := by
  have hb2 := bget_hit s dev blockno i hfind
  have hbuf := buf_setBuf_self s i
    { s.buf i with
        refcnt := ((s.buf i).refcnt + 1) % U32, lockHeld := true } hlen
  have hv2 : ((s.setBuf i
      { s.buf i with
          refcnt := ((s.buf i).refcnt + 1) % U32,
          lockHeld := true }).buf i).valid = true := by
    rw [hbuf]
    exact hvalid
  refine ⟨?_, by rw [hbuf], hv2⟩
  rw [bread, hb2]
  dsimp only
  simp [hv2]

/-! ## Claim C6: read-after-write without a redundant device read -/

/-- C6: for a valid slot held by the caller, `bwrite` then `brelse` then
`bread` of the same key returns the same slot, whose payload is exactly the
bytes last persisted, with `valid` still true and no device read performed
(the hit path does not touch `valid` or the payload). -/
theorem C6_read_after_write (s : BCache) (i dev blockno ticks : Nat)
    (d : Disk) (hwf : WF s) (hu : UniqueIdent s) (hlen : i < s.bufs.length)
    (hdev : (s.buf i).dev = dev) (hbn : (s.buf i).blockno = blockno)
    (hvalid : (s.buf i).valid = true) (hlock : (s.buf i).lockHeld = true) :
    ∃ (dw : Disk) (s1 s2 : BCache),
      bwrite s i d = some (s, dw) ∧
      dw dev blockno = (s.buf i).data ∧
      brelse s i ticks = some s1 ∧
      bread dw s1 dev blockno = .ok s2 i false ∧
      (s2.buf i).data = (s.buf i).data ∧
      (s2.buf i).valid = true := by
  have hbw : bwrite s i d =
      some (s, writeDisk d dev blockno (s.buf i).data) := by
    rw [bwrite, if_pos hlock, hdev, hbn]
  have hd' : writeDisk d dev blockno (s.buf i).data dev blockno =
      (s.buf i).data := by
    simp [writeDisk]
  have hbr : brelse s i ticks = some (s.setBuf i
      { s.buf i with
          lockHeld := false,
          refcnt := ((s.buf i).refcnt + (U32 - 1)) % U32,
          timestamp := ticks % U32 }) := by
    rw [brelse, if_pos hlock]
  have hs1buf : (s.setBuf i
      { s.buf i with
          lockHeld := false,
          refcnt := ((s.buf i).refcnt + (U32 - 1)) % U32,
          timestamp := ticks % U32 }).buf i =
      { s.buf i with
          lockHeld := false,
          refcnt := ((s.buf i).refcnt + (U32 - 1)) % U32,
          timestamp := ticks % U32 } :=
    buf_setBuf_self s i _ hlen
  have himem : i ∈ s.buckets.getD (bhashgetline blockno) [] := by
    obtain ⟨h0, hh0, hb0⟩ := mem_scanOrder s i (hwf.2.2.1 i hlen)
    have hc := (hwf.2.1 h0 hh0 i hb0).2
    rw [hbn] at hc
    rw [hc]
    exact hb0
  have hfind : bhashget (s.setBuf i
      { s.buf i with
          lockHeld := false,
          refcnt := ((s.buf i).refcnt + (U32 - 1)) % U32,
          timestamp := ticks % U32 }) (bhashgetline blockno) dev blockno =
      some i := by
    apply find?_eq_some_of_unique
    · exact himem
    · rw [hs1buf]
      simp [hdev, hbn]
    · intro j hj hpj
      by_cases hji : j = i
      · exact hji
      · exfalso
        rw [buf_setBuf_ne s i _ j hji] at hpj
        simp only [Bool.and_eq_true, beq_iff_eq] at hpj
        have hjlen : j < s.bufs.length :=
          (hwf.2.1 (bhashgetline blockno) (bhashgetline_lt blockno) j hj).1
        exact hu j hjlen i hlen hji
          ⟨hpj.1.trans hdev.symm, hpj.2.trans hbn.symm⟩
  have hs1len : i < (s.setBuf i
      { s.buf i with
          lockHeld := false,
          refcnt := ((s.buf i).refcnt + (U32 - 1)) % U32,
          timestamp := ticks % U32 }).bufs.length := by
    show i < (s.bufs.set i
      { s.buf i with
          lockHeld := false,
          refcnt := ((s.buf i).refcnt + (U32 - 1)) % U32,
          timestamp := ticks % U32 }).length
    rw [List.length_set]
    exact hlen
  have hv1 : ((s.setBuf i
      { s.buf i with
          lockHeld := false,
          refcnt := ((s.buf i).refcnt + (U32 - 1)) % U32,
          timestamp := ticks % U32 }).buf i).valid = true := by
    rw [hs1buf]
    exact hvalid
  obtain ⟨hread, hdata, hval⟩ :=
    bread_hit (writeDisk d dev blockno (s.buf i).data)
      (s.setBuf i
        { s.buf i with
          lockHeld := false,
          refcnt := ((s.buf i).refcnt + (U32 - 1)) % U32,
          timestamp := ticks % U32 }) dev blockno i hfind hs1len hv1
  refine ⟨writeDisk d dev blockno (s.buf i).data, _, _, hbw, hd', hbr,
    hread, ?_, hval⟩
  rw [hdata, hs1buf]

/-- C6 witness: the theorem applied to the held, valid slot of `poolHeld`
(block (1, 7), payload 42) with `testDisk` and release time 9. -/
theorem C6_read_after_write_witness :
    ∃ (dw : Disk) (s1 s2 : BCache),
      bwrite poolHeld 0 testDisk = some (poolHeld, dw) ∧
      dw 1 7 = (poolHeld.buf 0).data ∧
      brelse poolHeld 0 9 = some s1 ∧
      bread dw s1 1 7 = .ok s2 0 false ∧
      (s2.buf 0).data = (poolHeld.buf 0).data ∧
      (s2.buf 0).valid = true :=
  C6_read_after_write poolHeld 0 1 7 9 testDisk (by decide) (by decide)
    (by decide) (by decide) (by decide) (by decide) (by decide)

/-! ## Claim C7: bwrite requires the content lock and mutates nothing -/

/-- C7: `bwrite` panics when the caller does not hold the buffer's sleep
lock; when it does, it performs a synchronous device write of the buffer's
payload at the buffer's identity and returns with the cache state — lock,
refcount, identity, valid flag and recency included — unchanged. -/
theorem C7_bwrite (s : BCache) (i : Nat) (d : Disk) :
    ((s.buf i).lockHeld = false → bwrite s i d = none) ∧
    ((s.buf i).lockHeld = true →
      ∃ dw, bwrite s i d = some (s, dw) ∧
        dw (s.buf i).dev (s.buf i).blockno = (s.buf i).data ∧
        ∀ de bl, ¬(de = (s.buf i).dev ∧ bl = (s.buf i).blockno) →
          dw de bl = d de bl) := by
  constructor
  · intro hl
    rw [bwrite, if_neg]
    rw [hl]
    exact Bool.false_ne_true
  · intro hl
    refine ⟨_, by rw [bwrite, if_pos hl], by simp [writeDisk], ?_⟩
    intro de bl hne
    simp only [writeDisk, if_neg hne]

/-- C7 witness: the theorem applied to the held slot of `poolHeld` (write
succeeds, state unchanged) and to the unheld slot of `poolTwo` (panic). -/
theorem C7_bwrite_witness :
    (∃ dw, bwrite poolHeld 0 testDisk = some (poolHeld, dw) ∧
      dw (poolHeld.buf 0).dev (poolHeld.buf 0).blockno =
        (poolHeld.buf 0).data ∧
      ∀ de bl, ¬(de = (poolHeld.buf 0).dev ∧ bl = (poolHeld.buf 0).blockno) →
        dw de bl = testDisk de bl) ∧
    bwrite poolTwo 0 testDisk = none :=
  ⟨(C7_bwrite poolHeld 0 testDisk).2 (by decide),
   (C7_bwrite poolTwo 0 testDisk).1 (by decide)⟩

/-! ## Claim C8: bunpin past zero -/

/-- C8, counterexample: `bunpin` on a slot with refcount 0 is *not* a fatal
fault in bio.c — the function has no check, completes normally, and the
`uint` decrement wraps the refcount to `0xFFFFFFFF = 2^32 - 1`, silently
dropping it below zero (modulo 2^32), contrary to the claimed unrecoverable
fault. -/
theorem C8_cex :
    (cexC8.buf 0).refcnt = 0 ∧
    bunpin cexC8 0 =
      ⟨[⟨0, 0, false, 4294967295, 0, 0, false⟩],
       [0] :: List.replicate 18 []⟩ ∧
    ((bunpin cexC8 0).buf 0).refcnt = 4294967295 := by decide

/-- C8, amended: `bunpin` decrements unconditionally with no zero check:
on a slot whose refcount is already 0 it completes and wraps the 32-bit
refcount to `2^32 - 1` instead of surfacing a fault. -/
theorem C8_bunpin_wraps (s : BCache) (i : Nat) (hlen : i < s.bufs.length)
    (hrc : (s.buf i).refcnt = 0) :
    ((bunpin s i).buf i).refcnt = U32 - 1 := by
  rw [bunpin]
  rw [buf_setBuf_self s i _ hlen]
  show ((s.buf i).refcnt + (U32 - 1)) % U32 = U32 - 1
  rw [hrc]
  simp [U32]

/-- C8 witness: the amended theorem applied to the zero-refcount slot of
`cexC8`. -/
theorem C8_bunpin_wraps_witness : ((bunpin cexC8 0).buf 0).refcnt = U32 - 1 :=
  C8_bunpin_wraps cexC8 0 (by decide) (by decide)

/-! ## Claim C10: pin/unpin touch only the refcount -/

/-- C10: `bpin` and `bunpin` modify only the slot's refcount: the bucket
lists are untouched and the affected slot keeps its identity, valid flag,
payload, recency timestamp and lock bit (so pinning does not refresh the
LRU rank — it stays determined by the last release); every other slot is
untouched. -/
theorem C10_pin_frame (s : BCache) (i : Nat) (hlen : i < s.bufs.length) :
    (bpin s i).buckets = s.buckets ∧
    (bunpin s i).buckets = s.buckets ∧
    (bpin s i).buf i =
      { s.buf i with refcnt := ((s.buf i).refcnt + 1) % U32 } ∧
    (bunpin s i).buf i =
      { s.buf i with refcnt := ((s.buf i).refcnt + (U32 - 1)) % U32 } ∧
    ∀ j, j ≠ i → (bpin s i).buf j = s.buf j ∧ (bunpin s i).buf j = s.buf j :=
  ⟨rfl, rfl, buf_setBuf_self s i _ hlen, buf_setBuf_self s i _ hlen,
   fun j hj => ⟨buf_setBuf_ne s i _ j hj, buf_setBuf_ne s i _ j hj⟩⟩

/-- C10 witness: the frame theorem applied to slot 0 of `poolHeld`. -/
theorem C10_pin_frame_witness :
    (bpin poolHeld 0).buckets = poolHeld.buckets ∧
    (bunpin poolHeld 0).buckets = poolHeld.buckets ∧
    (bpin poolHeld 0).buf 0 =
      { poolHeld.buf 0 with refcnt := ((poolHeld.buf 0).refcnt + 1) % U32 } ∧
    (bunpin poolHeld 0).buf 0 =
      { poolHeld.buf 0 with
          refcnt := ((poolHeld.buf 0).refcnt + (U32 - 1)) % U32 } ∧
    ∀ j, j ≠ 0 → (bpin poolHeld 0).buf j = poolHeld.buf j ∧
      (bunpin poolHeld 0).buf j = poolHeld.buf j :=
  C10_pin_frame poolHeld 0 (by decide)

end BCacheSpec
